import Mathlib

/-!
Verification of the `barcode-vote` classifier
(`src/barcode_vote_classifier/cli.py`).

The Python source is shallowly embedded below: pure helper functions become
Lean functions on `String`/`Int`/`ℚ`; the filesystem touched by the download
and resolution code becomes an explicit association list from path to byte
content; the sha256 digest is an abstract function parameter. Python float
division in the hit filter is modelled by exact rational division.
-/

deriving instance DecidableEq for Except

namespace BarcodeVote

/-! ### Python string primitives -/

/-- The ASCII whitespace characters recognised by the Python `str.strip`. -/
def isPySpace (c : Char) : Bool :=
  c = ' ' || c = '\t' || c = '\n' || c = '\r' || c = Char.ofNat 11 || c = Char.ofNat 12

/-- Model of Python `str.strip`: drop whitespace from both ends. -/
def stripWs (l : List Char) : List Char :=
  ((l.dropWhile isPySpace).reverse.dropWhile isPySpace).reverse

/-- Model of Python `str.strip` on `String`. -/
def stripStr (s : String) : String :=
  String.mk (stripWs s.toList)

/-- ASCII lower-casing of one character, as Python `str.lower` acts on
the ASCII range relevant here. -/
def lowerChar (c : Char) : Char :=
  if 'A' ≤ c && c ≤ 'Z' then Char.ofNat (c.toNat + 32) else c

/-- ASCII lower-casing of a character list. -/
def lowerList (l : List Char) : List Char :=
  l.map lowerChar

/-- Model of Python `str.lower` on `String`. -/
def lowerStr (s : String) : String :=
  String.mk (lowerList s.toList)

/-- Validity of the tail of a Python integer literal after its first digit:
digits, optionally separated by single underscores. -/
def digitsTail : List Char → Bool
  | [] => true
  | '_' :: rest =>
    match rest with
    | [] => false
    | d :: rest2 => d.isDigit && digitsTail rest2
  | c :: rest => c.isDigit && digitsTail rest

/-- Numeric value of a digit character. -/
def digitVal (c : Char) : Nat := c.toNat - 48

/-- Accumulate the value of a digit string, skipping underscores. -/
def digitsVal : List Char → Nat → Nat
  | [], acc => acc
  | c :: rest, acc =>
    if c = '_' then digitsVal rest acc else digitsVal rest (acc * 10 + digitVal c)

/-- Parse an unsigned Python integer literal (nonempty digits with optional
single underscores between digits). -/
def pyDigits (l : List Char) : Option Nat :=
  match l with
  | [] => none
  | c :: rest => if c.isDigit && digitsTail rest then some (digitsVal l 0) else none

/-- Model of the Python `int(str)` conversion used by the PAF parser:
surrounding whitespace is stripped, an optional sign is honoured, and the
remainder must be a valid digit sequence, else the conversion fails. -/
def pyInt (s : String) : Option Int :=
  let t := stripWs s.toList
  match t with
  | '+' :: rest => (pyDigits rest).map (fun n => (n : Int))
  | '-' :: rest => (pyDigits rest).map (fun n => -(n : Int))
  | _ => (pyDigits t).map (fun n => (n : Int))

/-- Split a character list on every occurrence of `sep`, keeping empty
segments, as the Python `str.split` with a one-character separator does. -/
def splitChar (sep : Char) : List Char → List (List Char)
  | [] => [[]]
  | c :: cs =>
    match splitChar sep cs with
    | [] => [[c]]
    | g :: gs => if c = sep then [] :: g :: gs else (c :: g) :: gs

/-- Model of `line.split` on the tab character (cli.py line 272). -/
def splitTab (s : String) : List String :=
  (splitChar '\t' s.toList).map String.mk

/-- Does `sep` occur as a contiguous sublist of `l`? Models the Python
substring test `sep in tname`. -/
def occursIn (sep : List Char) : List Char → Bool
  | [] => sep.isEmpty
  | c :: rest => sep.isPrefixOf (c :: rest) || occursIn sep rest

/-- The segment of `l` before the first occurrence of `sep`; the whole of
`l` if `sep` does not occur. Models the head of the Python `str.split`. -/
def beforeFirst (sep : List Char) : List Char → List Char
  | [] => []
  | c :: rest => if sep.isPrefixOf (c :: rest) then [] else c :: beforeFirst sep rest

/-! ### PAF parsing (cli.py lines 260-285) -/

/-- One parsed PAF alignment record, the tuple returned by
`parse_paf_line`. -/
structure PafRec where
  qname : String
  tname : String
  qlen : Int
  tlen : Int
  nmatch : Int
  alnlen : Int
  mapq : Int
deriving DecidableEq

/-- Zero-based field access in a split line, models the Python `parts[i]`
under the length guard of the parser. -/
def fld (parts : List String) (i : Nat) : String := parts.getD i ""

/-- Embedding of `parse_paf_line` (cli.py lines 260-285): split on tabs,
require at least 12 fields, convert fields 2, 7, 10, 11 and 12 with the
Python `int`; any conversion failure yields `none`. -/
def parse_paf_line (line : String) : Option PafRec :=
  let parts := splitTab line
  if parts.length < 12 then none
  else
    match pyInt (fld parts 1), pyInt (fld parts 6), pyInt (fld parts 9),
          pyInt (fld parts 10), pyInt (fld parts 11) with
    | some qlen, some tlen, some nmatch, some alnlen, some mapq =>
        some ⟨fld parts 0, fld parts 5, qlen, tlen, nmatch, alnlen, mapq⟩
    | _, _, _, _, _ => none

/-- Embedding of `category_from_target` (cli.py lines 288-293):
`tname.split(sep)[0] if sep in tname else "unclassified"`. For a nonempty
separator, the head of the Python split is the segment before the first
occurrence of the separator. -/
def category_from_target (tname sep : String) : String :=
  if occursIn sep.toList tname.toList then String.mk (beforeFirst sep.toList tname.toList)
  else "unclassified"

/-! ### Hit filter (cli.py lines 344-353) -/

/-- Embedding of the inline hit filter of `cmd_classify` (cli.py lines
344-353): records with a nonpositive aligned block length or target length
are skipped, then the mapping-quality, identity and coverage predicates are
applied. Python float division is modelled by exact rational division. -/
def retainHit (idThr covThr : ℚ) (minMapq tlen nmatch alnlen mapq : Int) : Bool :=
  if alnlen ≤ 0 || tlen ≤ 0 then false
  else if mapq < minMapq then false
  else decide ((nmatch : ℚ) / (alnlen : ℚ) > idThr) && decide ((alnlen : ℚ) / (tlen : ℚ) > covThr)

/-! ### Vote aggregation (cli.py lines 311, 353-358, 372-379)

The Python `vote_bins` is a `defaultdict` of `defaultdict(int)`.  A Python
dict iterates in insertion order, so it is embedded as an association list
in which a fresh key is appended at the end and an existing key is updated
in place. -/

/-- One retained hit, as consumed by the vote aggregator: the query name,
the target name and the matched-base count used as vote weight. -/
structure Hit where
  qname : String
  tname : String
  nmatch : Int
deriving DecidableEq

/-- Per-query vote bin: category to accumulated weight, in insertion
order. -/
abbrev BinsQ := List (String × Int)

/-- All vote bins: query to its per-query bin, in insertion order. -/
abbrev Bins := List (String × BinsQ)

/-- Add weight `w` for category `c`, models `defaultdict(int)` update. -/
def bumpCat (l : BinsQ) (c : String) (w : Int) : BinsQ :=
  match l with
  | [] => [(c, w)]
  | (c1, w1) :: rest => if c1 = c then (c1, w1 + w) :: rest else (c1, w1) :: bumpCat rest c w

/-- `vote_bins[qname][cat] += nmatch` (cli.py line 356). -/
def bumpQ (b : Bins) (q c : String) (w : Int) : Bins :=
  match b with
  | [] => [(q, [(c, w)])]
  | (q1, l) :: rest => if q1 = q then (q1, bumpCat l c w) :: rest else (q1, l) :: bumpQ rest q c w

/-- Dict lookup on the outer association list. -/
def lookup1 (b : Bins) (q : String) : Option BinsQ :=
  match b with
  | [] => none
  | (q1, l) :: rest => if q1 = q then some l else lookup1 rest q

/-- Dict lookup on a per-query bin. -/
def lookup2 (l : BinsQ) (c : String) : Option Int :=
  match l with
  | [] => none
  | (c1, w) :: rest => if c1 = c then some w else lookup2 rest c

/-- Weight stored for query `q` and category `c`. -/
def lookupW (b : Bins) (q c : String) : Option Int :=
  match lookup1 b q with
  | none => none
  | some l => lookup2 l c

/-- Processing of one retained hit (cli.py lines 355-356): derive the
category and add the matched-base count to its bin. -/
def voteStep (sep : String) (b : Bins) (h : Hit) : Bins :=
  bumpQ b h.qname (category_from_target h.tname sep) h.nmatch

/-- Fold every retained hit into the vote bins, in stream order
(cli.py lines 353-358). -/
def voteAccum (sep : String) (hits : List Hit) : Bins :=
  hits.foldl (voteStep sep) []

/-- One output row of the final-results loop (cli.py lines 374-379):
`max(cats, key=cats.get)` returns the first key of the dict, in insertion
order, attaining the maximal value, which is exactly `List.argmax` on the
association list; its value is the vote score.  The fallback row for a
query with an empty bin is unreachable, since a bin is only ever created
with its first vote already in it. -/
def rowFor (b : Bins) (q : String) : String × String × Int :=
  match ((lookup1 b q).getD []).argmax Prod.snd with
  | some p => (q, p.1, p.2)
  | none => (q, "", 0)

/-- The final-results rows (cli.py lines 372-379): one row per query of
the vote bins, queries in ascending lexicographic order. -/
def classify_rows (sep : String) (hits : List Hit) : List (String × String × Int) :=
  let b := voteAccum sep hits
  ((b.map Prod.fst).insertionSort (fun a b => a ≤ b)).map (rowFor b)

/-- The retained-hit stream produced from the aligner output lines by
`cmd_classify` (cli.py lines 335-358): each line is stripped, blank lines
are skipped, unparsable lines are skipped, and parsed records are filtered
by `retainHit`. -/
def hitsOfLines (idThr covThr : ℚ) (minMapq : Int) (lines : List String) : List Hit :=
  lines.filterMap (fun line =>
    let l := stripStr line
    if l = "" then none
    else
      match parse_paf_line l with
      | none => none
      | some r =>
          if retainHit idThr covThr minMapq r.tlen r.nmatch r.alnlen r.mapq then
            some ⟨r.qname, r.tname, r.nmatch⟩
          else none)

/-- Specification-side accumulated weight: the sum of the matched-base
counts of the hits of query `q` whose derived category is `c`. -/
def voteTotal (sep : String) : List Hit → String → String → Int
  | [], _, _ => 0
  | h :: t, q, c =>
      (if h.qname = q ∧ category_from_target h.tname sep = c then h.nmatch else 0) +
        voteTotal sep t q c

/-- Does the hit list contain a hit of query `q` with derived category
`c`? -/
def hitsHas (sep : String) (hits : List Hit) (q c : String) : Prop :=
  ∃ h ∈ hits, h.qname = q ∧ category_from_target h.tname sep = c

/-! ### Filesystem model, checksum verification and download
(cli.py lines 176-249, 398-431) -/

/-- The filesystem slice the tool touches: an association list from path
to byte content. -/
abbrev Fs := List (String × List Nat)

/-- Content stored at a path. -/
def fsGet (fs : Fs) (p : String) : Option (List Nat) :=
  match fs with
  | [] => none
  | (p1, v) :: rest => if p1 = p then some v else fsGet rest p

/-- Write content at a path. -/
def fsSet (fs : Fs) (p : String) (v : List Nat) : Fs :=
  match fs with
  | [] => [(p, v)]
  | (p1, v1) :: rest => if p1 = p then (p, v) :: rest else (p1, v1) :: fsSet rest p v

/-- Remove a path, models `Path.unlink` with `missing_ok`. -/
def fsDel (fs : Fs) (p : String) : Fs :=
  match fs with
  | [] => []
  | (p1, v1) :: rest => if p1 = p then fsDel rest p else (p1, v1) :: fsDel rest p

/-- The temporary sibling used by `download_file` (cli.py line 196): for
the fixed destination name `barcode_ref.mmi`, `with_suffix` appends
`.tmp`. -/
def tmpName (dest : String) : String := dest ++ ".tmp"

/-- A checksum mismatch report, carrying the expected and computed
digests. -/
structure Mismatch where
  expected : String
  got : String
deriving DecidableEq

/-- Embedding of `download_file` (cli.py lines 191-208).  The abstract
`hash` stands for `sha256_file`; `net` is the byte stream the URL serves,
written first to the temporary sibling.  On digest mismatch the temporary
file is unlinked and the error is returned; on success the temporary file
is renamed onto the destination. -/
def download_file (hash : List Nat → String) (net : List Nat) (dest expected : String)
    (fs : Fs) : Except Mismatch Unit × Fs :=
  let tmp := tmpName dest
  let fs1 := fsSet fs tmp net
  let got := hash net
  if lowerStr got ≠ lowerStr expected then
    (Except.error ⟨expected, got⟩, fsDel fs1 tmp)
  else
    (Except.ok (), fsDel (fsSet fs1 dest net) tmp)

/-- The sixteen characters the sha256 validator accepts. -/
def hexChars : List Char := "0123456789abcdef".toList

/-- Embedding of `_validate_sha256` (cli.py lines 184-188): strip
whitespace, lower-case, then require exactly 64 hex characters; `none`
models the raised `RuntimeError`. -/
def validate_sha256 (s : String) : Option String :=
  let t := String.mk (lowerList (stripWs s.toList))
  if t.length = 64 ∧ t.toList.all (fun c => c ∈ hexChars) then some t else none

/-- Errors of the `download` subcommand. -/
inductive AcqError where
  | noUrl : AcqError
  | noSha : AcqError
  | invalidSha : AcqError
  | mismatch : String → String → AcqError
deriving DecidableEq

/-- The destination path inside the chosen directory
(cli.py line 415). -/
def destOf (dir : String) : String := dir ++ "/barcode_ref.mmi"

/-- The already-downloaded short-circuit test of `cmd_download` (cli.py
lines 417-419): the destination exists, is nonempty, `force` is off and
its digest matches the validated expected digest. -/
def shortCircuit (hash : List Nat → String) (fs : Fs) (dest sh : String)
    (force : Bool) : Bool :=
  match fsGet fs dest with
  | none => false
  | some c => decide (c ≠ []) && !force && decide (lowerStr (hash c) = sh)

/-- Embedding of `cmd_download` (cli.py lines 398-431), without the
config-writing and logging side effects.  The returned Boolean records
whether any network transfer was performed.  The destination short-circuit
(lines 417-424) returns at once when the file exists, is nonempty, `force`
is off and its digest matches; otherwise `download_file` runs. -/
def cmd_download (hash : List Nat → String) (net : List Nat) (url sha dir : String)
    (force : Bool) (fs : Fs) : Except AcqError (String × Fs) × Bool :=
  if url = "" then (Except.error AcqError.noUrl, false)
  else if sha = "" then (Except.error AcqError.noSha, false)
  else
    match validate_sha256 sha with
    | none => (Except.error AcqError.invalidSha, false)
    | some sh =>
      if shortCircuit hash fs (destOf dir) sh force then (Except.ok (destOf dir, fs), false)
      else
        match download_file hash net (destOf dir) sh fs with
        | (Except.ok _, fs1) => (Except.ok (destOf dir, fs1), true)
        | (Except.error e, _) => (Except.error (AcqError.mismatch e.expected e.got), true)

/-! ### Reference resolution (cli.py lines 130-166, 211-249) -/

/-- Process environment and filesystem metadata consulted by
`resolve_ref_path`: the `BARCODE_REF_MMI` variable, the `ref_mmi` value of
the config file as returned by `read_config_ref`, the `TMPDIR` and
`XDG_CACHE_HOME` variables, the home directory, and the set of existing
paths with their sizes. -/
structure World where
  envRef : Option String
  cfgRef : Option String
  tmpdir : Option String
  xdgCache : Option String
  home : String
  files : List (String × Nat)

/-- Does a path exist on disk? -/
def World.pathExists (w : World) (p : String) : Bool :=
  match w.files.lookup p with
  | some _ => true
  | none => false

/-- Size of a path, 0 when absent. -/
def World.pathSize (w : World) (p : String) : Nat :=
  (w.files.lookup p).getD 0

/-- Python truthiness of an optional string: unset and empty are falsy. -/
def truthy : Option String → Bool
  | none => false
  | some s => decide (s ≠ "")

/-- Value of an optional string, empty when unset. -/
def optVal : Option String → String
  | none => ""
  | some s => s

/-- Embedding of `cache_dir` (cli.py lines 141-152): prefer `TMPDIR` when
asked, then `XDG_CACHE_HOME`, then the home cache directory. -/
def cache_dir (w : World) (preferTmp : Bool) : String :=
  if preferTmp && truthy w.tmpdir then optVal w.tmpdir ++ "/barcode-vote-classifier"
  else if truthy w.xdgCache then optVal w.xdgCache ++ "/barcode-vote-classifier"
  else w.home ++ "/.cache/barcode-vote-classifier"

/-- Failures of reference resolution: a missing explicit override, a
missing environment path, or the final not-found report. -/
inductive RefError where
  | notFoundCli : String → RefError
  | notFoundEnv : String → RefError
  | notFoundAll : RefError
deriving DecidableEq

/-- Embedding of `resolve_ref_path` (cli.py lines 211-249): the explicit
`--ref` wins, then the environment variable, then the config entry when its
path exists, then the cache file when it exists with nonzero size;
otherwise the run fails. -/
def resolve_ref_path (w : World) (cliRef : String) (preferTmp : Bool) :
    Except RefError (String × String) :=
  if cliRef ≠ "" then
    if w.pathExists cliRef then Except.ok (cliRef, "cli")
    else Except.error (RefError.notFoundCli cliRef)
  else if truthy w.envRef then
    if w.pathExists (optVal w.envRef) then Except.ok (optVal w.envRef, "env")
    else Except.error (RefError.notFoundEnv (optVal w.envRef))
  else if truthy w.cfgRef && w.pathExists (optVal w.cfgRef) then
    Except.ok (optVal w.cfgRef, "config")
  else
    let cached := cache_dir w preferTmp ++ "/barcode_ref.mmi"
    if w.pathExists cached && decide (0 < w.pathSize cached) then Except.ok (cached, "cache")
    else Except.error RefError.notFoundAll

/-! ### Orchestrator read schedule (cli.py lines 329-362) -/

/-- One read action `cmd_classify` performs on the pipes of the aligner
process. -/
inductive IoEvent where
  | readOut : String → IoEvent
  | readErr : IoEvent
deriving DecidableEq

/-- The order in which `cmd_classify` reads the two captured pipes
(cli.py lines 329-362): the single host thread consumes standard output
line by line to exhaustion, and only then reads standard error. -/
def classifyIoTrace (outLines : List String) : List IoEvent :=
  outLines.map IoEvent.readOut ++ [IoEvent.readErr]

/-! ### Helper lemmas -/

theorem fsGet_fsSet (fs : Fs) (p : String) (v : List Nat) (p1 : String) :
    fsGet (fsSet fs p v) p1 = if p = p1 then some v else fsGet fs p1 := by
  induction fs with
  | nil => simp [fsSet, fsGet]
  | cons hd tl ih =>
    obtain ⟨p2, v2⟩ := hd
    by_cases h : p2 = p
    · subst h
      by_cases h1 : p2 = p1 <;> simp [fsSet, fsGet, h1]
    · by_cases h1 : p2 = p1
      · subst h1
        simp [fsSet, fsGet, h, Ne.symm h]
      · simp [fsSet, fsGet, h, h1, ih]

theorem fsGet_fsDel (fs : Fs) (p p1 : String) :
    fsGet (fsDel fs p) p1 = if p = p1 then none else fsGet fs p1 := by
  induction fs with
  | nil => simp [fsDel, fsGet]
  | cons hd tl ih =>
    obtain ⟨p2, v2⟩ := hd
    by_cases h : p2 = p
    · subst h
      by_cases h1 : p2 = p1
      · subst h1
        simp [fsDel, fsGet, ih]
      · simp [fsDel, fsGet, h1, ih, fun h2 : p2 = p1 => h1 h2]
    · by_cases h1 : p2 = p1
      · subst h1
        simp [fsDel, fsGet, h, Ne.symm h]
      · simp [fsDel, fsGet, h, h1, ih]

theorem tmpName_ne (dest : String) : tmpName dest ≠ dest := by
  intro h
  have h2 := congrArg (fun s : String => s.data.length) h
  simp [tmpName, String.data_append] at h2

/-! ### C1 -/

/-- C1: the hit filter retains a record iff the aligned block length and
target length are positive, the mapping quality reaches the minimum, and
the identity and coverage ratios strictly exceed their thresholds; a
record exactly at either threshold is excluded. -/
theorem retainHit_spec (idThr covThr : ℚ) (minMapq tlen nmatch alnlen mapq : Int) :
    (retainHit idThr covThr minMapq tlen nmatch alnlen mapq = true ↔
      0 < alnlen ∧ 0 < tlen ∧ minMapq ≤ mapq ∧
        idThr < (nmatch : ℚ) / (alnlen : ℚ) ∧ covThr < (alnlen : ℚ) / (tlen : ℚ)) ∧
    ((nmatch : ℚ) / (alnlen : ℚ) = idThr ∨ (alnlen : ℚ) / (tlen : ℚ) = covThr →
      retainHit idThr covThr minMapq tlen nmatch alnlen mapq = false) := by
  have hmain : retainHit idThr covThr minMapq tlen nmatch alnlen mapq = true ↔
      0 < alnlen ∧ 0 < tlen ∧ minMapq ≤ mapq ∧
        idThr < (nmatch : ℚ) / (alnlen : ℚ) ∧ covThr < (alnlen : ℚ) / (tlen : ℚ) := by
    unfold retainHit
    split_ifs with h1 h2
    · simp only [Bool.or_eq_true, decide_eq_true_iff] at h1
      constructor
      · intro h; exact absurd h (by simp)
      · intro h
        rcases h with ⟨ha, ht, -, -, -⟩
        rcases h1 with h1 | h1 <;> omega
    · constructor
      · intro h; exact absurd h (by simp)
      · intro h
        rcases h with ⟨-, -, hm, -, -⟩
        omega
    · simp only [Bool.or_eq_true, decide_eq_true_iff, not_or, not_le] at h1
      push_neg at h2
      simp only [Bool.and_eq_true, decide_eq_true_iff]
      constructor
      · intro h
        exact ⟨h1.1, h1.2, h2, h.1, h.2⟩
      · intro h
        exact ⟨h.2.2.2.1, h.2.2.2.2⟩
  refine ⟨hmain, ?_⟩
  intro h
  rw [← Bool.not_eq_true]
  intro htrue
  rcases (hmain.mp htrue) with ⟨-, -, -, hid, hcov⟩
  rcases h with h | h
  · rw [h] at hid; exact lt_irrefl _ hid
  · rw [h] at hcov; exact lt_irrefl _ hcov

/-- Witness for C1: identity exactly at the threshold is excluded. -/
theorem retainHit_spec_witness :
    (50 : ℚ) / (100 : ℚ) = (1 : ℚ) / 2 ∧
    retainHit ((1 : ℚ) / 2) ((1 : ℚ) / 2) 0 100 50 100 30 = false := by
  refine ⟨by norm_num, ?_⟩
  exact (retainHit_spec ((1 : ℚ) / 2) ((1 : ℚ) / 2) 0 100 50 100 30).2 (Or.inl (by norm_num))

/-! ### C2 -/

/-- C2: on a digest mismatch the download deletes the temporary file,
reports the mismatch, and leaves the destination path exactly as it was;
the temporary file is renamed onto the destination only when the digest
comparison (case-insensitive) succeeds, after which the destination holds
the downloaded bytes. -/
theorem download_file_checksum_safety (hash : List Nat → String) (net : List Nat)
    (dest expected : String) (fs : Fs) :
    (lowerStr (hash net) ≠ lowerStr expected →
      (download_file hash net dest expected fs).1 = Except.error ⟨expected, hash net⟩ ∧
      fsGet (download_file hash net dest expected fs).2 dest = fsGet fs dest ∧
      fsGet (download_file hash net dest expected fs).2 (tmpName dest) = none) ∧
    (lowerStr (hash net) = lowerStr expected →
      (download_file hash net dest expected fs).1 = Except.ok () ∧
      fsGet (download_file hash net dest expected fs).2 dest = some net ∧
      fsGet (download_file hash net dest expected fs).2 (tmpName dest) = none) := by
  have hne := tmpName_ne dest
  constructor
  · intro h
    refine ⟨?_, ?_, ?_⟩ <;>
      simp [download_file, h, fsGet_fsDel, fsGet_fsSet, hne, Ne.symm hne]
  · intro h
    have h2 : ¬ lowerStr (hash net) ≠ lowerStr expected := by simp [h]
    refine ⟨?_, ?_, ?_⟩ <;>
      simp [download_file, h2, fsGet_fsDel, fsGet_fsSet, hne, Ne.symm hne]

/-- Witness for C2: a corrupted download on an empty filesystem reports
the mismatch and leaves the destination absent and the temporary file
deleted. -/
theorem download_file_checksum_safety_witness :
    lowerStr ((fun _ : List Nat => "aa") [5]) ≠ lowerStr "bb" ∧
    (download_file (fun _ => "aa") [5] "d/ref" "bb" []).1 = Except.error ⟨"bb", "aa"⟩ ∧
    fsGet (download_file (fun _ => "aa") [5] "d/ref" "bb" []).2 "d/ref" =
      fsGet ([] : Fs) "d/ref" ∧
    fsGet (download_file (fun _ => "aa") [5] "d/ref" "bb" []).2 (tmpName "d/ref") = none := by
  have h := (download_file_checksum_safety (fun _ => "aa") [5] "d/ref" "bb" []).1 (by decide)
  exact ⟨by decide, h.1, h.2.1, h.2.2⟩

/-! ### C3 -/

/-- C3: reference resolution follows the strict precedence chain: a
nonempty explicit override wins and fails when missing on disk; otherwise
a truthy environment path wins and fails when missing on disk; otherwise a
truthy config entry is used only when its path exists and is silently
skipped when stale; otherwise the cache path is used exactly when it
exists with nonzero size, and resolution fails when nothing matches. -/
theorem resolve_ref_path_precedence (w : World) (cliRef : String) (preferTmp : Bool) :
    (cliRef ≠ "" → w.pathExists cliRef = false →
      resolve_ref_path w cliRef preferTmp = Except.error (RefError.notFoundCli cliRef)) ∧
    (cliRef ≠ "" → w.pathExists cliRef = true →
      resolve_ref_path w cliRef preferTmp = Except.ok (cliRef, "cli")) ∧
    (cliRef = "" → truthy w.envRef = true → w.pathExists (optVal w.envRef) = false →
      resolve_ref_path w cliRef preferTmp =
        Except.error (RefError.notFoundEnv (optVal w.envRef))) ∧
    (cliRef = "" → truthy w.envRef = true → w.pathExists (optVal w.envRef) = true →
      resolve_ref_path w cliRef preferTmp = Except.ok (optVal w.envRef, "env")) ∧
    (cliRef = "" → truthy w.envRef = false →
      truthy w.cfgRef = true → w.pathExists (optVal w.cfgRef) = true →
      resolve_ref_path w cliRef preferTmp = Except.ok (optVal w.cfgRef, "config")) ∧
    (cliRef = "" → truthy w.envRef = false →
      (truthy w.cfgRef = false ∨ w.pathExists (optVal w.cfgRef) = false) →
      resolve_ref_path w cliRef preferTmp =
        (if w.pathExists (cache_dir w preferTmp ++ "/barcode_ref.mmi") &&
            decide (0 < w.pathSize (cache_dir w preferTmp ++ "/barcode_ref.mmi")) then
          Except.ok (cache_dir w preferTmp ++ "/barcode_ref.mmi", "cache")
        else Except.error RefError.notFoundAll)) := by
  refine ⟨?_, ?_, ?_, ?_, ?_, ?_⟩
  · intro h1 h2; simp [resolve_ref_path, h1, h2]
  · intro h1 h2; simp [resolve_ref_path, h1, h2]
  · intro h1 h2 h3; simp [resolve_ref_path, h1, h2, h3]
  · intro h1 h2 h3; simp [resolve_ref_path, h1, h2, h3]
  · intro h1 h2 h3 h4; simp [resolve_ref_path, h1, h2, h3, h4]
  · intro h1 h2 h3
    rcases h3 with h3 | h3 <;> simp [resolve_ref_path, h1, h2, h3]

/-- Witness for C3: an explicit override that is missing on disk fails
with the not-found error. -/
theorem resolve_ref_path_precedence_witness :
    resolve_ref_path ⟨none, none, none, none, "/h", []⟩ "/miss" true =
      Except.error (RefError.notFoundCli "/miss") :=
  (resolve_ref_path_precedence ⟨none, none, none, none, "/h", []⟩ "/miss" true).1
    (by decide) (by decide)

/-! ### C10 -/

/-- C10 (behaviour the code actually has): the classification run reads
the captured standard-error pipe only once, strictly after the entire
standard-output stream has been consumed — there is no concurrent drain
path for standard error. -/
theorem stderr_read_after_stdout (outLines : List String) (i : Nat) :
    (classifyIoTrace outLines)[i]? = some IoEvent.readErr → i = outLines.length := by
  intro h
  unfold classifyIoTrace at h
  rw [List.getElem?_append] at h
  by_cases hi : i < (List.map IoEvent.readOut outLines).length
  · rw [if_pos hi, List.getElem?_map] at h
    rcases hx : outLines[i]? with _ | s
    · rw [hx] at h; simp at h
    · rw [hx] at h; simp at h
  · rw [if_neg hi] at h
    push_neg at hi
    have hz : i - (List.map IoEvent.readOut outLines).length = 0 := by
      by_contra hz
      have h1 : 1 ≤ i - (List.map IoEvent.readOut outLines).length :=
        Nat.one_le_iff_ne_zero.mpr hz
      have h0 : ([IoEvent.readErr][i - (List.map IoEvent.readOut outLines).length]?) = none :=
        List.getElem?_eq_none (by simpa using h1)
      rw [h0] at h
      exact absurd h (by simp)
    rw [List.length_map] at hi hz
    omega

/-- Witness for C10: in a one-line run the standard-error read sits at
index 1, after the single standard-output read. -/
theorem stderr_read_after_stdout_witness :
    (classifyIoTrace ["a"])[1]? = some IoEvent.readErr ∧ 1 = (["a"] : List String).length :=
  ⟨by decide, stderr_read_after_stdout ["a"] 1 (by decide)⟩

/-! ### C5 (corrected) -/

/-- C5 counterexample: an input consisting of the `sha256:` prefix
followed by 64 valid hex characters is rejected by the validator — no
prefix stripping happens. -/
theorem validate_sha256_prefix_counterexample :
    (String.mk (List.replicate 64 'a')).length = 64 ∧
    (String.mk (List.replicate 64 'a')).toList.all (fun c => c ∈ hexChars) = true ∧
    validate_sha256 ("sha256:" ++ String.mk (List.replicate 64 'a')) = none := by
  decide

/-- C5 as amended: normalization strips surrounding whitespace and
lower-cases (it does not strip a `sha256:` prefix); the result must be
exactly 64 hex characters, and an invalid digest makes the download
command fail before any network transfer. -/
theorem validate_sha256_spec (s t : String) :
    (validate_sha256 s = some t ↔
      t = String.mk (lowerList (stripWs s.toList)) ∧ t.length = 64 ∧
        t.toList.all (fun c => c ∈ hexChars) = true) ∧
    (∀ hash net url dir force fs, validate_sha256 s = none → url ≠ "" → s ≠ "" →
      cmd_download hash net url s dir force fs = (Except.error AcqError.invalidSha, false)) := by
  constructor
  · unfold validate_sha256
    dsimp only
    split_ifs with h
    · constructor
      · intro he
        have ht : String.mk (lowerList (stripWs s.toList)) = t := by
          simpa using he
        subst ht
        exact ⟨rfl, h.1, h.2⟩
      · rintro ⟨rfl, -, -⟩
        rfl
    · constructor
      · intro he
        exact absurd he (by simp)
      · rintro ⟨rfl, h1, h2⟩
        exact absurd ⟨h1, h2⟩ h
  · intro hash net url dir force fs hval hurl hs
    simp [cmd_download, hurl, hs, hval]

/-- Witness for C5: a two-character digest is rejected before any network
transfer is attempted. -/
theorem validate_sha256_spec_witness :
    validate_sha256 "zz" = none ∧
    cmd_download (fun _ => "") [] "u" "zz" "d" false [] =
      (Except.error AcqError.invalidSha, false) :=
  ⟨by decide,
    (validate_sha256_spec "zz" "").2 (fun _ => "") [] "u" "d" false []
      (by decide) (by decide) (by decide)⟩

/-! ### C7 (corrected) -/

/-- C7 counterexample: a 12-field line whose query-length field (field 2)
is not an integer is reported malformed, although all the numeric fields
the claim names (fields 7, 10, 11, 12) parse as integers. -/
theorem parse_paf_line_counterexample :
    (splitTab "q\tX\t0\t0\t+\tt\t100\t0\t0\t80\t100\t60").length = 12 ∧
    pyInt (fld (splitTab "q\tX\t0\t0\t+\tt\t100\t0\t0\t80\t100\t60") 6) = some 100 ∧
    pyInt (fld (splitTab "q\tX\t0\t0\t+\tt\t100\t0\t0\t80\t100\t60") 9) = some 80 ∧
    pyInt (fld (splitTab "q\tX\t0\t0\t+\tt\t100\t0\t0\t80\t100\t60") 10) = some 100 ∧
    pyInt (fld (splitTab "q\tX\t0\t0\t+\tt\t100\t0\t0\t80\t100\t60") 11) = some 60 ∧
    parse_paf_line "q\tX\t0\t0\t+\tt\t100\t0\t0\t80\t100\t60" = none := by
  decide

/-- C7 as amended: the parser splits on tabs and is malformed exactly when
fewer than 12 fields are present or one of the five integer fields —
query length (field 2), target length (field 7), matched bases (field
10), aligned block length (field 11), mapping quality (field 12) — fails
to parse; otherwise the record carries query id from field 1, target id
from field 6 and the stated numeric fields; a malformed line is dropped
from the retained-hit stream without aborting it. -/
theorem parse_paf_line_spec (line : String) :
    (parse_paf_line line = none ↔
      (splitTab line).length < 12 ∨ pyInt (fld (splitTab line) 1) = none ∨
      pyInt (fld (splitTab line) 6) = none ∨ pyInt (fld (splitTab line) 9) = none ∨
      pyInt (fld (splitTab line) 10) = none ∨ pyInt (fld (splitTab line) 11) = none) ∧
    (∀ r, parse_paf_line line = some r →
      r.qname = fld (splitTab line) 0 ∧ r.tname = fld (splitTab line) 5 ∧
      some r.qlen = pyInt (fld (splitTab line) 1) ∧
      some r.tlen = pyInt (fld (splitTab line) 6) ∧
      some r.nmatch = pyInt (fld (splitTab line) 9) ∧
      some r.alnlen = pyInt (fld (splitTab line) 10) ∧
      some r.mapq = pyInt (fld (splitTab line) 11)) ∧
    (∀ idThr covThr minMapq rest, parse_paf_line (stripStr line) = none →
      hitsOfLines idThr covThr minMapq (line :: rest) = hitsOfLines idThr covThr minMapq rest) := by
  refine ⟨?_, ?_, ?_⟩
  · unfold parse_paf_line
    by_cases hl : (splitTab line).length < 12
    · simp [hl]
    · rcases h1 : pyInt (fld (splitTab line) 1) with _ | v1 <;>
        rcases h2 : pyInt (fld (splitTab line) 6) with _ | v2 <;>
        rcases h3 : pyInt (fld (splitTab line) 9) with _ | v3 <;>
        rcases h4 : pyInt (fld (splitTab line) 10) with _ | v4 <;>
        rcases h5 : pyInt (fld (splitTab line) 11) with _ | v5 <;>
        simp [hl, h1, h2, h3, h4, h5]
  · intro r hr
    unfold parse_paf_line at hr
    by_cases hl : (splitTab line).length < 12
    · rw [if_pos hl] at hr
      exact absurd hr (by simp)
    · rw [if_neg hl] at hr
      rcases h1 : pyInt (fld (splitTab line) 1) with _ | v1 <;>
        rcases h2 : pyInt (fld (splitTab line) 6) with _ | v2 <;>
        rcases h3 : pyInt (fld (splitTab line) 9) with _ | v3 <;>
        rcases h4 : pyInt (fld (splitTab line) 10) with _ | v4 <;>
        rcases h5 : pyInt (fld (splitTab line) 11) with _ | v5 <;>
        simp only [h1, h2, h3, h4, h5] at hr <;>
        simp at hr
      subst hr
      exact ⟨rfl, rfl, rfl, rfl, rfl, rfl, rfl⟩
  · intro idThr covThr minMapq rest hp
    show List.filterMap _ (line :: rest) = List.filterMap _ rest
    rw [List.filterMap_cons]
    by_cases hb : stripStr line = ""
    · simp [hb]
    · simp [hb, hp]

/-- Witness for C7: a line of garbage yields no parsed record and drops
out of the retained-hit stream. -/
theorem parse_paf_line_spec_witness :
    parse_paf_line (stripStr "garbage") = none ∧
    hitsOfLines 0 0 0 ["garbage"] = hitsOfLines 0 0 0 [] :=
  ⟨by decide, (parse_paf_line_spec "garbage").2.2 0 0 0 [] (by decide)⟩

/-! ### C8 -/

theorem occursIn_iff (sep l : List Char) :
    occursIn sep l = true ↔ ∃ i, sep.isPrefixOf (l.drop i) = true := by
  induction l with
  | nil =>
    constructor
    · intro h
      refine ⟨0, ?_⟩
      have hs : sep = [] := by
        cases sep with
        | nil => rfl
        | cons a as => simp [occursIn, List.isEmpty] at h
      subst hs
      rfl
    · rintro ⟨i, hi⟩
      rw [List.drop_nil] at hi
      cases sep with
      | nil => rfl
      | cons a as => simp [List.isPrefixOf] at hi
  | cons c rest ih =>
    simp only [occursIn, Bool.or_eq_true]
    constructor
    · rintro (h | h)
      · exact ⟨0, by simpa using h⟩
      · obtain ⟨i, hi⟩ := ih.mp h
        exact ⟨i + 1, by simpa using hi⟩
    · rintro ⟨i, hi⟩
      cases i with
      | zero => exact Or.inl (by simpa using hi)
      | succ i => exact Or.inr (ih.mpr ⟨i, by simpa using hi⟩)

theorem beforeFirst_least (sep : List Char) (hsep : sep ≠ []) :
    ∀ (l : List Char) (i : Nat), sep.isPrefixOf (l.drop i) = true →
      (∀ j, j < i → ¬ sep.isPrefixOf (l.drop j) = true) →
      beforeFirst sep l = l.take i := by
  intro l
  induction l with
  | nil =>
    intro i hi hleast
    rw [List.drop_nil] at hi
    cases sep with
    | nil => exact absurd rfl hsep
    | cons a as => simp [List.isPrefixOf] at hi
  | cons c rest ih =>
    intro i hi hleast
    cases i with
    | zero =>
      rw [List.drop_zero] at hi
      simp [beforeFirst, hi]
    | succ i =>
      have h0 : ¬ sep.isPrefixOf (c :: rest) = true := by
        have := hleast 0 (Nat.succ_pos i)
        simpa using this
      unfold beforeFirst
      rw [if_neg h0, List.take_succ_cons]
      rw [ih i (by simpa using hi) (fun j hj => by simpa using hleast (j + 1) (by omega))]

/-- C8: for a nonempty separator, the derived category is the segment of
the target id before the first (leftmost) occurrence of the separator,
and the literal `unclassified` when the separator does not occur. -/
theorem category_from_target_spec (t sep : String) (hsep : sep ≠ "") :
    ((¬ ∃ i, sep.toList.isPrefixOf (t.toList.drop i) = true) →
      category_from_target t sep = "unclassified") ∧
    (∀ i, sep.toList.isPrefixOf (t.toList.drop i) = true →
      (∀ j, j < i → ¬ sep.toList.isPrefixOf (t.toList.drop j) = true) →
      category_from_target t sep = String.mk (t.toList.take i)) := by
  have hsl : sep.toList ≠ [] := by
    intro h
    apply hsep
    have h2 := congrArg String.mk h
    simpa using h2
  constructor
  · intro h
    unfold category_from_target
    rw [if_neg (fun hocc => h ((occursIn_iff _ _).mp hocc))]
  · intro i hi hleast
    unfold category_from_target
    rw [if_pos ((occursIn_iff _ _).mpr ⟨i, hi⟩)]
    rw [beforeFirst_least sep.toList hsl t.toList i hi hleast]

/-- Witness for C8: the separator occurs first at index 8 of
`Bacteria|BC001`, and the category is the prefix before it. -/
theorem category_from_target_spec_witness :
    "|".toList.isPrefixOf ("Bacteria|BC001".toList.drop 8) = true ∧
    category_from_target "Bacteria|BC001" "|" = "Bacteria" := by
  have h := (category_from_target_spec "Bacteria|BC001" "|" (by decide)).2 8
    (by decide) (by decide)
  exact ⟨by decide, h.trans (by decide)⟩

/-! ### C6 -/

theorem lowerChar_hex : ∀ c ∈ hexChars, lowerChar c = c := by decide

theorem lowerStr_of_all_hex (t : String)
    (h : t.toList.all (fun c => c ∈ hexChars) = true) : lowerStr t = t := by
  have h2 : ∀ a ∈ t.toList, lowerChar a = id a := by
    intro a ha
    exact lowerChar_hex a (by simpa using List.all_eq_true.mp h a ha)
  have h3 : t.toList.map lowerChar = t.toList := by
    rw [List.map_congr_left h2, List.map_id]
  show String.mk (lowerList t.toList) = t
  unfold lowerList
  rw [h3]
  rfl

theorem validate_sha256_all_hex (s t : String) (h : validate_sha256 s = some t) :
    t.toList.all (fun c => c ∈ hexChars) = true := by
  unfold validate_sha256 at h
  dsimp only at h
  split_ifs at h with hc
  obtain rfl : String.mk (lowerList (stripWs s.toList)) = t := by simpa using h
  exact hc.2

/-- C6: acquisition is idempotent — when a first call installed a
verified, nonempty artifact, a second call with the same URL and digest
performs no network transfer, returns the same installed path, and leaves
the filesystem unchanged. -/
theorem cmd_download_idempotent (hash : List Nat → String) (net net2 : List Nat)
    (url sha dir : String) (fs fs1 : Fs) (p : String) (b : Bool) (c : List Nat) :
    cmd_download hash net url sha dir false fs = (Except.ok (p, fs1), b) →
    fsGet fs1 p = some c → c ≠ [] →
    cmd_download hash net2 url sha dir false fs1 = (Except.ok (p, fs1), false) := by
  intro h1 hc hne
  unfold cmd_download at h1 ⊢
  by_cases hu : url = ""
  · rw [if_pos hu] at h1
    exact absurd h1 (by simp)
  · rw [if_neg hu] at h1 ⊢
    by_cases hs : sha = ""
    · rw [if_pos hs] at h1
      exact absurd h1 (by simp)
    · rw [if_neg hs] at h1 ⊢
      rcases hv : validate_sha256 sha with _ | sh
      · rw [hv] at h1
        simp at h1
      · rw [hv] at h1
        dsimp only at h1 ⊢
        by_cases hsc : shortCircuit hash fs (destOf dir) sh false = true
        · rw [if_pos hsc] at h1
          have hp : (destOf dir = p ∧ fs = fs1) ∧ b = false := by
            simpa [Prod.ext_iff] using h1
          obtain ⟨⟨rfl, rfl⟩, rfl⟩ := hp
          rw [if_pos hsc]
        · rw [if_neg hsc] at h1
          unfold download_file at h1
          dsimp only at h1
          by_cases hm : lowerStr (hash net) ≠ lowerStr sh
          · rw [if_pos hm] at h1
            exact absurd h1 (by simp)
          · rw [if_neg hm] at h1
            push_neg at hm
            have hp : (destOf dir = p ∧
                fsDel (fsSet (fsSet fs (tmpName (destOf dir)) net) (destOf dir) net)
                  (tmpName (destOf dir)) = fs1) ∧ b = true := by
              simpa [Prod.ext_iff] using h1
            obtain ⟨⟨rfl, rfl⟩, rfl⟩ := hp
            have hget : fsGet (fsDel (fsSet (fsSet fs (tmpName (destOf dir)) net)
                (destOf dir) net) (tmpName (destOf dir))) (destOf dir) = some net := by
              rw [fsGet_fsDel, if_neg (tmpName_ne (destOf dir)), fsGet_fsSet, if_pos rfl]
            rw [hget] at hc
            have hcn : net = c := by simpa using hc
            rw [← hcn] at hne
            have hlow : lowerStr sh = sh :=
              lowerStr_of_all_hex sh (validate_sha256_all_hex sha sh hv)
            have hsc1 : shortCircuit hash
                (fsDel (fsSet (fsSet fs (tmpName (destOf dir)) net) (destOf dir) net)
                  (tmpName (destOf dir))) (destOf dir) sh false = true := by
              unfold shortCircuit
              rw [hget]
              simp [hne, hm, hlow]
            rw [if_pos hsc1]

/-- The digest every demonstration byte stream hashes to: 64 characters
`a`. -/
def demoSha : String := String.mk (List.replicate 64 'a')

/-- A demonstration hash function that always returns `demoSha`. -/
def demoHash : List Nat → String := fun _ => demoSha

/-- Witness for C6: a first download installs the artifact; the repeated
call is answered from the cache with no network transfer. -/
theorem cmd_download_idempotent_witness :
    cmd_download demoHash [1] "u" demoSha "d" false [] =
      (Except.ok ("d/barcode_ref.mmi", [("d/barcode_ref.mmi", [1])]), true) ∧
    cmd_download demoHash [2] "u" demoSha "d" false [("d/barcode_ref.mmi", [1])] =
      (Except.ok ("d/barcode_ref.mmi", [("d/barcode_ref.mmi", [1])]), false) := by
  have h2 := cmd_download_idempotent demoHash [1] [2] "u" demoSha "d" []
    [("d/barcode_ref.mmi", [1])] "d/barcode_ref.mmi" true [1]
    (by decide) (by decide) (by decide)
  exact ⟨by decide, h2⟩

/-! ### Vote-aggregation lemmas -/

theorem lookup2_bumpCat (l : BinsQ) (c : String) (w : Int) (c1 : String) :
    lookup2 (bumpCat l c w) c1 =
      if c = c1 then some ((lookup2 l c).getD 0 + w) else lookup2 l c1 := by
  induction l with
  | nil =>
    by_cases h : c = c1 <;> simp [bumpCat, lookup2, h]
  | cons hd rest ih =>
    obtain ⟨c2, w2⟩ := hd
    by_cases h2 : c2 = c
    · subst h2
      by_cases h1 : c2 = c1 <;> simp [bumpCat, lookup2, h1]
    · by_cases h1 : c2 = c1
      · subst h1
        have hcc : ¬ c = c2 := fun h => h2 h.symm
        simp [bumpCat, lookup2, h2, hcc]
      · simp [bumpCat, lookup2, h2, h1, ih]

theorem lookup1_bumpQ (b : Bins) (q : String) (c : String) (w : Int) (q1 : String) :
    lookup1 (bumpQ b q c w) q1 =
      if q = q1 then some (bumpCat ((lookup1 b q).getD []) c w) else lookup1 b q1 := by
  induction b with
  | nil =>
    by_cases h : q = q1 <;> simp [bumpQ, lookup1, bumpCat, h]
  | cons hd rest ih =>
    obtain ⟨q2, l2⟩ := hd
    by_cases h2 : q2 = q
    · subst h2
      by_cases h1 : q2 = q1 <;> simp [bumpQ, lookup1, h1]
    · by_cases h1 : q2 = q1
      · subst h1
        have hqq : ¬ q = q2 := fun h => h2 h.symm
        simp [bumpQ, lookup1, h2, hqq]
      · simp [bumpQ, lookup1, h2, h1, ih]

theorem lookupW_bumpQ (b : Bins) (q c : String) (w : Int) (q1 c1 : String) :
    lookupW (bumpQ b q c w) q1 c1 =
      if q = q1 ∧ c = c1 then some ((lookupW b q c).getD 0 + w) else lookupW b q1 c1 := by
  unfold lookupW
  rw [lookup1_bumpQ]
  by_cases hq : q = q1
  · subst hq
    rw [if_pos rfl]
    rcases hb : lookup1 b q with _ | l
    · dsimp only
      rw [lookup2_bumpCat]
      by_cases hc : c = c1 <;> simp [hc, lookup2]
    · dsimp only
      rw [lookup2_bumpCat]
      by_cases hc : c = c1 <;> simp [hc]
  · rw [if_neg hq, if_neg (fun h => hq h.1)]

theorem keys_bumpQ (b : Bins) (q c : String) (w : Int) :
    (bumpQ b q c w).map Prod.fst =
      if q ∈ b.map Prod.fst then b.map Prod.fst else b.map Prod.fst ++ [q] := by
  induction b with
  | nil => simp [bumpQ]
  | cons hd rest ih =>
    obtain ⟨q2, l2⟩ := hd
    by_cases h2 : q2 = q
    · subst h2
      simp [bumpQ]
    · have hqq : ¬ q = q2 := fun h => h2 h.symm
      by_cases hm : q ∈ rest.map Prod.fst <;>
        simp [bumpQ, h2, hm, hqq, ih]

theorem mem_keys_bumpQ (b : Bins) (q c : String) (w : Int) (q1 : String) :
    q1 ∈ (bumpQ b q c w).map Prod.fst ↔ q1 ∈ b.map Prod.fst ∨ q1 = q := by
  rw [keys_bumpQ]
  by_cases hm : q ∈ b.map Prod.fst
  · rw [if_pos hm]
    constructor
    · exact Or.inl
    · rintro (h | rfl)
      · exact h
      · exact hm
  · rw [if_neg hm]
    simp

theorem nodup_keys_bumpQ (b : Bins) (q c : String) (w : Int)
    (h : (b.map Prod.fst).Nodup) : ((bumpQ b q c w).map Prod.fst).Nodup := by
  rw [keys_bumpQ]
  by_cases hm : q ∈ b.map Prod.fst
  · rwa [if_pos hm]
  · rw [if_neg hm]
    simp [List.nodup_append, h, hm]

theorem bumpCat_ne_nil (l : BinsQ) (c : String) (w : Int) : bumpCat l c w ≠ [] := by
  cases l with
  | nil => simp [bumpCat]
  | cons hd rest =>
    obtain ⟨c2, w2⟩ := hd
    by_cases h : c2 = c <;> simp [bumpCat, h]

theorem inner_ne_nil_bumpQ (b : Bins) (q c : String) (w : Int)
    (h : ∀ x ∈ b, x.2 ≠ []) : ∀ x ∈ bumpQ b q c w, x.2 ≠ [] := by
  induction b with
  | nil =>
    intro x hx
    simp only [bumpQ, List.mem_singleton] at hx
    subst hx
    simp
  | cons hd rest ih =>
    obtain ⟨q2, l2⟩ := hd
    intro x hx
    by_cases h2 : q2 = q
    · subst h2
      simp only [bumpQ, eq_self_iff_true, if_true, List.mem_cons] at hx
      rcases hx with rfl | hx
      · exact bumpCat_ne_nil _ _ _
      · exact h x (List.mem_cons_of_mem _ hx)
    · simp only [bumpQ, if_neg h2, List.mem_cons] at hx
      rcases hx with rfl | hx
      · exact h _ (List.mem_cons_self _ _)
      · exact ih (fun y hy => h y (List.mem_cons_of_mem _ hy)) x hx

theorem keys_bumpCat (l : BinsQ) (c : String) (w : Int) :
    (bumpCat l c w).map Prod.fst =
      if c ∈ l.map Prod.fst then l.map Prod.fst else l.map Prod.fst ++ [c] := by
  induction l with
  | nil => simp [bumpCat]
  | cons hd rest ih =>
    obtain ⟨c2, w2⟩ := hd
    by_cases h2 : c2 = c
    · subst h2
      simp [bumpCat]
    · have hcc : ¬ c = c2 := fun h => h2 h.symm
      by_cases hm : c ∈ rest.map Prod.fst <;>
        simp [bumpCat, h2, hm, hcc, ih]

theorem nodup_keys_bumpCat (l : BinsQ) (c : String) (w : Int)
    (h : (l.map Prod.fst).Nodup) : ((bumpCat l c w).map Prod.fst).Nodup := by
  rw [keys_bumpCat]
  by_cases hm : c ∈ l.map Prod.fst
  · rwa [if_pos hm]
  · rw [if_neg hm]
    simp [List.nodup_append, h, hm]

theorem inner_nodup_bumpQ (b : Bins) (q c : String) (w : Int)
    (h : ∀ x ∈ b, (x.2.map Prod.fst).Nodup) :
    ∀ x ∈ bumpQ b q c w, (x.2.map Prod.fst).Nodup := by
  induction b with
  | nil =>
    intro x hx
    simp only [bumpQ, List.mem_singleton] at hx
    subst hx
    simp
  | cons hd rest ih =>
    obtain ⟨q2, l2⟩ := hd
    intro x hx
    by_cases h2 : q2 = q
    · subst h2
      simp only [bumpQ, eq_self_iff_true, if_true, List.mem_cons] at hx
      rcases hx with rfl | hx
      · exact nodup_keys_bumpCat _ _ _ (h _ (List.mem_cons_self _ _))
      · exact h x (List.mem_cons_of_mem _ hx)
    · simp only [bumpQ, if_neg h2, List.mem_cons] at hx
      rcases hx with rfl | hx
      · exact h _ (List.mem_cons_self _ _)
      · exact ih (fun y hy => h y (List.mem_cons_of_mem _ hy)) x hx

theorem hitsHas_cons (sep : String) (h : Hit) (t : List Hit) (q c : String) :
    hitsHas sep (h :: t) q c ↔
      (h.qname = q ∧ category_from_target h.tname sep = c) ∨ hitsHas sep t q c := by
  unfold hitsHas
  constructor
  · rintro ⟨x, hx, hq, hc⟩
    rcases List.mem_cons.mp hx with rfl | hx
    · exact Or.inl ⟨hq, hc⟩
    · exact Or.inr ⟨x, hx, hq, hc⟩
  · rintro (⟨hq, hc⟩ | ⟨x, hx, hq, hc⟩)
    · exact ⟨h, List.mem_cons_self _ _, hq, hc⟩
    · exact ⟨x, List.mem_cons_of_mem _ hx, hq, hc⟩

theorem lookupW_foldl_none (sep : String) :
    ∀ (hits : List Hit) (b : Bins) (q c : String),
      lookupW (hits.foldl (voteStep sep) b) q c = none ↔
        lookupW b q c = none ∧ ¬ hitsHas sep hits q c := by
  intro hits
  induction hits with
  | nil =>
    intro b q c
    simp [hitsHas]
  | cons h t ih =>
    intro b q c
    rw [List.foldl_cons, ih]
    unfold voteStep
    rw [lookupW_bumpQ, hitsHas_cons]
    by_cases hqc : h.qname = q ∧ category_from_target h.tname sep = c
    · rw [if_pos hqc]
      simp [hqc]
    · rw [if_neg hqc]
      simp [hqc]

theorem lookupW_foldl_getD (sep : String) :
    ∀ (hits : List Hit) (b : Bins) (q c : String),
      (lookupW (hits.foldl (voteStep sep) b) q c).getD 0 =
        (lookupW b q c).getD 0 + voteTotal sep hits q c := by
  intro hits
  induction hits with
  | nil =>
    intro b q c
    simp [voteTotal]
  | cons h t ih =>
    intro b q c
    rw [List.foldl_cons, ih]
    unfold voteStep
    rw [lookupW_bumpQ]
    simp only [voteTotal]
    by_cases hqc : h.qname = q ∧ category_from_target h.tname sep = c
    · rw [if_pos hqc, if_pos hqc]
      simp only [Option.getD_some]
      rw [hqc.1, hqc.2]
      ring
    · rw [if_neg hqc, if_neg hqc]
      ring

theorem mem_keys_foldl (sep : String) :
    ∀ (hits : List Hit) (b : Bins) (q : String),
      q ∈ (hits.foldl (voteStep sep) b).map Prod.fst ↔
        q ∈ b.map Prod.fst ∨ q ∈ hits.map Hit.qname := by
  intro hits
  induction hits with
  | nil =>
    intro b q
    simp
  | cons h t ih =>
    intro b q
    rw [List.foldl_cons, ih]
    unfold voteStep
    rw [mem_keys_bumpQ]
    simp only [List.map_cons, List.mem_cons]
    tauto

theorem nodup_keys_foldl (sep : String) :
    ∀ (hits : List Hit) (b : Bins), (b.map Prod.fst).Nodup →
      ((hits.foldl (voteStep sep) b).map Prod.fst).Nodup := by
  intro hits
  induction hits with
  | nil =>
    intro b hb
    simpa using hb
  | cons h t ih =>
    intro b hb
    rw [List.foldl_cons]
    exact ih _ (nodup_keys_bumpQ _ _ _ _ hb)

theorem inner_ne_nil_foldl (sep : String) :
    ∀ (hits : List Hit) (b : Bins), (∀ x ∈ b, x.2 ≠ []) →
      ∀ x ∈ hits.foldl (voteStep sep) b, x.2 ≠ [] := by
  intro hits
  induction hits with
  | nil =>
    intro b hb
    simpa using hb
  | cons h t ih =>
    intro b hb
    rw [List.foldl_cons]
    exact ih _ (inner_ne_nil_bumpQ _ _ _ _ hb)

theorem inner_nodup_foldl (sep : String) :
    ∀ (hits : List Hit) (b : Bins), (∀ x ∈ b, (x.2.map Prod.fst).Nodup) →
      ∀ x ∈ hits.foldl (voteStep sep) b, (x.2.map Prod.fst).Nodup := by
  intro hits
  induction hits with
  | nil =>
    intro b hb
    simpa using hb
  | cons h t ih =>
    intro b hb
    rw [List.foldl_cons]
    exact ih _ (inner_nodup_bumpQ _ _ _ _ hb)

theorem lookup1_none_iff (b : Bins) (q : String) :
    lookup1 b q = none ↔ q ∉ b.map Prod.fst := by
  induction b with
  | nil => simp [lookup1]
  | cons hd rest ih =>
    obtain ⟨q2, l2⟩ := hd
    by_cases h : q2 = q
    · subst h
      simp [lookup1]
    · simp only [lookup1, if_neg h, List.map_cons, List.mem_cons]
      rw [ih]
      constructor
      · intro hn
        rintro (rfl | hm)
        · exact h rfl
        · exact hn hm
      · intro hn hm
        exact hn (Or.inr hm)

theorem lookup1_mem (b : Bins) (q : String) (l : BinsQ) (h : lookup1 b q = some l) :
    (q, l) ∈ b := by
  induction b with
  | nil => simp [lookup1] at h
  | cons hd rest ih =>
    obtain ⟨q2, l2⟩ := hd
    by_cases h2 : q2 = q
    · subst h2
      simp only [lookup1, if_pos rfl] at h
      obtain rfl : l2 = l := by simpa using h
      exact List.mem_cons_self _ _
    · simp only [lookup1, if_neg h2] at h
      exact List.mem_cons_of_mem _ (ih h)

theorem mem_iff_lookup2 (l : BinsQ) (hnd : (l.map Prod.fst).Nodup) (c : String) (v : Int) :
    (c, v) ∈ l ↔ lookup2 l c = some v := by
  induction l with
  | nil => simp [lookup2]
  | cons hd rest ih =>
    obtain ⟨c2, v2⟩ := hd
    simp only [List.map_cons, List.nodup_cons] at hnd
    by_cases hc : c2 = c
    · subst hc
      constructor
      · intro hmem
        rcases List.mem_cons.mp hmem with heq | hmem
        · obtain ⟨-, rfl⟩ : c2 = c2 ∧ v2 = v := by
            constructor
            · rfl
            · exact (Prod.mk.injEq _ _ _ _ |>.mp heq.symm).2
          simp [lookup2]
        · exact absurd (List.mem_map_of_mem Prod.fst hmem) hnd.1
      · intro hl
        simp only [lookup2, if_pos rfl] at hl
        obtain rfl : v2 = v := by simpa using hl
        exact List.mem_cons_self _ _
    · have hcc : ¬ (c, v) = (c2, v2) := by
        intro h
        exact hc ((Prod.mk.injEq _ _ _ _ |>.mp h).1.symm)
      simp only [lookup2, if_neg hc, List.mem_cons]
      rw [ih hnd.2]
      constructor
      · rintro (h | h)
        · exact absurd h hcc
        · exact h
      · exact Or.inr

theorem lookupW_voteAccum_none (sep : String) (hits : List Hit) (q c : String) :
    lookupW (voteAccum sep hits) q c = none ↔ ¬ hitsHas sep hits q c := by
  unfold voteAccum
  rw [lookupW_foldl_none]
  simp [lookupW, lookup1]

theorem lookupW_voteAccum_some (sep : String) (hits : List Hit) (q c : String)
    (h : hitsHas sep hits q c) :
    lookupW (voteAccum sep hits) q c = some (voteTotal sep hits q c) := by
  have h1 : lookupW (voteAccum sep hits) q c ≠ none := fun hn =>
    ((lookupW_voteAccum_none sep hits q c).mp hn) h
  rcases hx : lookupW (voteAccum sep hits) q c with _ | v
  · exact absurd hx h1
  · have h2 := lookupW_foldl_getD sep hits [] q c
    unfold voteAccum at hx
    rw [hx] at h2
    simp only [Option.getD_some] at h2
    simp only [lookupW, lookup1, Option.getD_none] at h2
    rw [h2]
    simp

theorem mem_keys_voteAccum (sep : String) (hits : List Hit) (q : String) :
    q ∈ (voteAccum sep hits).map Prod.fst ↔ q ∈ hits.map Hit.qname := by
  unfold voteAccum
  rw [mem_keys_foldl]
  simp

theorem nodup_keys_voteAccum (sep : String) (hits : List Hit) :
    ((voteAccum sep hits).map Prod.fst).Nodup := by
  unfold voteAccum
  exact nodup_keys_foldl sep hits [] (by simp)

theorem rowFor_fst (b : Bins) (q : String) : (rowFor b q).1 = q := by
  unfold rowFor
  rcases h : ((lookup1 b q).getD []).argmax Prod.snd with _ | p <;> simp

theorem rowFor_voteAccum (sep : String) (hits : List Hit) (q : String)
    (hq : q ∈ (voteAccum sep hits).map Prod.fst) :
    hitsHas sep hits q (rowFor (voteAccum sep hits) q).2.1 ∧
    (rowFor (voteAccum sep hits) q).2.2 =
      voteTotal sep hits q (rowFor (voteAccum sep hits) q).2.1 ∧
    (∀ c, hitsHas sep hits q c →
      voteTotal sep hits q c ≤ (rowFor (voteAccum sep hits) q).2.2) := by
  have h1 : lookup1 (voteAccum sep hits) q ≠ none := fun hn =>
    ((lookup1_none_iff _ _).mp hn) hq
  rcases hi : lookup1 (voteAccum sep hits) q with _ | inner
  · exact absurd hi h1
  have hmem1 : (q, inner) ∈ voteAccum sep hits := lookup1_mem _ _ _ hi
  have hinne : inner ≠ [] := by
    have := inner_ne_nil_foldl sep hits [] (by simp) (q, inner) hmem1
    simpa using this
  have hnodup : (inner.map Prod.fst).Nodup := by
    have := inner_nodup_foldl sep hits [] (by simp) (q, inner) hmem1
    simpa using this
  have hargne : inner.argmax Prod.snd ≠ none := fun hn =>
    hinne (List.argmax_eq_none.mp hn)
  rcases hp : inner.argmax Prod.snd with _ | p
  · exact absurd hp hargne
  have hprow : rowFor (voteAccum sep hits) q = (q, p.1, p.2) := by
    unfold rowFor
    rw [hi]
    simp [hp]
  have hpmem : p ∈ inner := List.argmax_mem (Option.mem_def.mpr hp)
  have hple : ∀ x ∈ inner, x.2 ≤ p.2 := fun x hx =>
    List.le_of_mem_argmax hx (Option.mem_def.mpr hp)
  have hpl : lookup2 inner p.1 = some p.2 := by
    rw [← mem_iff_lookup2 inner hnodup]
    rw [Prod.mk.eta]
    exact hpmem
  have hW : lookupW (voteAccum sep hits) q p.1 = some p.2 := by
    unfold lookupW
    rw [hi]
    exact hpl
  have hH : hitsHas sep hits q p.1 := by
    by_contra hcon
    rw [← lookupW_voteAccum_none sep hits q p.1] at hcon
    rw [hW] at hcon
    exact absurd hcon (by simp)
  have hval : p.2 = voteTotal sep hits q p.1 := by
    have := lookupW_voteAccum_some sep hits q p.1 hH
    rw [hW] at this
    simpa using this
  refine ⟨?_, ?_, ?_⟩
  · rw [hprow]
    exact hH
  · rw [hprow]
    exact hval
  · intro c hc
    rw [hprow]
    have hWc : lookupW (voteAccum sep hits) q c = some (voteTotal sep hits q c) :=
      lookupW_voteAccum_some sep hits q c hc
    have hlc : lookup2 inner c = some (voteTotal sep hits q c) := by
      unfold lookupW at hWc
      rw [hi] at hWc
      exact hWc
    have hcm : (c, voteTotal sep hits q c) ∈ inner :=
      (mem_iff_lookup2 inner hnodup _ _).mpr hlc
    exact hple _ hcm

/-! ### C4 -/

/-- C4: the final-results rows are sorted by ascending lexicographic query
id, contain exactly one row per query that received at least one retained
hit, and each row reports a category whose accumulated weight is maximal
for its query, with the score equal to that accumulated weight. -/
theorem classify_rows_output_spec (sep : String) (hits : List Hit) :
    List.Sorted (fun a b : String => a ≤ b) ((classify_rows sep hits).map Prod.fst) ∧
    ((classify_rows sep hits).map Prod.fst).Nodup ∧
    (∀ q, q ∈ (classify_rows sep hits).map Prod.fst ↔ q ∈ hits.map Hit.qname) ∧
    (∀ r, r ∈ classify_rows sep hits →
      hitsHas sep hits r.1 r.2.1 ∧
      r.2.2 = voteTotal sep hits r.1 r.2.1 ∧
      (∀ c, hitsHas sep hits r.1 c → voteTotal sep hits r.1 c ≤ r.2.2)) := by
  have hfst : (classify_rows sep hits).map Prod.fst =
      ((voteAccum sep hits).map Prod.fst).insertionSort (fun a b : String => a ≤ b) := by
    unfold classify_rows
    rw [List.map_map]
    have : ∀ q ∈ (((voteAccum sep hits).map Prod.fst).insertionSort
        (fun a b : String => a ≤ b)), (Prod.fst ∘ rowFor (voteAccum sep hits)) q = id q :=
      fun q _ => rowFor_fst _ q
    rw [List.map_congr_left this, List.map_id]
  have hperm : List.Perm (((voteAccum sep hits).map Prod.fst).insertionSort
      (fun a b : String => a ≤ b)) ((voteAccum sep hits).map Prod.fst) :=
    List.perm_insertionSort _ _
  refine ⟨?_, ?_, ?_, ?_⟩
  · rw [hfst]
    exact List.sorted_insertionSort _ _
  · rw [hfst]
    exact hperm.nodup_iff.mpr (nodup_keys_voteAccum sep hits)
  · intro q
    rw [hfst]
    rw [hperm.mem_iff]
    exact mem_keys_voteAccum sep hits q
  · intro r hr
    unfold classify_rows at hr
    obtain ⟨q, hqks, rfl⟩ := List.mem_map.mp hr
    have hqmem : q ∈ (voteAccum sep hits).map Prod.fst := hperm.mem_iff.mp hqks
    have h := rowFor_voteAccum sep hits q hqmem
    have hq1 : (rowFor (voteAccum sep hits) q).1 = q := rowFor_fst _ q
    rw [hq1]
    exact h

/-- Witness for C4: the single retained hit of the end-to-end scenario
yields the row `read1`, `Bacteria`, 80, and 80 is the accumulated
weight. -/
theorem classify_rows_output_spec_witness :
    (("read1", "Bacteria", (80 : Int)) ∈
      classify_rows "|" [⟨"read1", "Bacteria|BC001", 80⟩]) ∧
    (80 : Int) = voteTotal "|" [⟨"read1", "Bacteria|BC001", 80⟩] "read1" "Bacteria" := by
  have h := (classify_rows_output_spec "|" [⟨"read1", "Bacteria|BC001", 80⟩]).2.2.2
    ("read1", "Bacteria", 80) (by decide)
  exact ⟨by decide, h.2.1⟩

/-! ### C9 (corrected) -/

theorem hitsHas_perm (sep : String) (hits1 hits2 : List Hit)
    (hp : List.Perm hits1 hits2) (q c : String) :
    hitsHas sep hits1 q c ↔ hitsHas sep hits2 q c := by
  unfold hitsHas
  constructor <;> rintro ⟨x, hx, hq, hc⟩
  · exact ⟨x, hp.mem_iff.mp hx, hq, hc⟩
  · exact ⟨x, hp.mem_iff.mpr hx, hq, hc⟩

theorem voteTotal_perm (sep : String) (hits1 hits2 : List Hit)
    (hp : List.Perm hits1 hits2) (q c : String) :
    voteTotal sep hits1 q c = voteTotal sep hits2 q c := by
  induction hp with
  | nil => rfl
  | cons x h ih =>
    simp only [voteTotal]
    rw [ih]
  | swap x y l =>
    simp only [voteTotal]
    ring
  | trans hab hbc ih1 ih2 =>
    rw [ih1, ih2]

theorem rowFor_perm_facts (sep : String) (hits1 hits2 : List Hit)
    (hperm : List.Perm hits1 hits2) (q : String)
    (hq1 : q ∈ (voteAccum sep hits1).map Prod.fst) :
    (rowFor (voteAccum sep hits1) q).2.2 = (rowFor (voteAccum sep hits2) q).2.2 ∧
    hitsHas sep hits1 q (rowFor (voteAccum sep hits2) q).2.1 ∧
    (∀ c, hitsHas sep hits1 q c →
      voteTotal sep hits1 q c ≤
        voteTotal sep hits1 q (rowFor (voteAccum sep hits2) q).2.1) := by
  have hq2 : q ∈ (voteAccum sep hits2).map Prod.fst := by
    rw [mem_keys_voteAccum] at hq1 ⊢
    exact (hperm.map Hit.qname).mem_iff.mp hq1
  obtain ⟨hH1, hV1, hM1⟩ := rowFor_voteAccum sep hits1 q hq1
  obtain ⟨hH2, hV2, hM2⟩ := rowFor_voteAccum sep hits2 q hq2
  have hH2t : hitsHas sep hits1 q (rowFor (voteAccum sep hits2) q).2.1 :=
    (hitsHas_perm sep hits1 hits2 hperm q _).mpr hH2
  have hM2t : ∀ c, hitsHas sep hits1 q c →
      voteTotal sep hits1 q c ≤ voteTotal sep hits1 q (rowFor (voteAccum sep hits2) q).2.1 := by
    intro c hc
    have h := hM2 c ((hitsHas_perm sep hits1 hits2 hperm q c).mp hc)
    rw [hV2] at h
    rw [voteTotal_perm sep hits1 hits2 hperm q c,
      voteTotal_perm sep hits1 hits2 hperm q (rowFor (voteAccum sep hits2) q).2.1]
    exact h
  refine ⟨?_, hH2t, hM2t⟩
  have hle1 : (rowFor (voteAccum sep hits1) q).2.2 ≤ (rowFor (voteAccum sep hits2) q).2.2 := by
    rw [hV1, hV2]
    rw [← voteTotal_perm sep hits1 hits2 hperm q (rowFor (voteAccum sep hits2) q).2.1]
    exact hM2t _ hH1
  have hle2 : (rowFor (voteAccum sep hits2) q).2.2 ≤ (rowFor (voteAccum sep hits1) q).2.2 := by
    rw [hV2, ← voteTotal_perm sep hits1 hits2 hperm q (rowFor (voteAccum sep hits2) q).2.1]
    exact hM1 _ hH2t
  exact le_antisymm hle1 hle2

/-- C9 counterexample: two retained hits for one query with equal weights
and different categories; the two processing orders produce different
winning categories, so winners are not order-independent. -/
theorem vote_order_counterexample :
    List.Perm [(⟨"q", "A|x", 10⟩ : Hit), ⟨"q", "B|x", 10⟩]
      [(⟨"q", "B|x", 10⟩ : Hit), ⟨"q", "A|x", 10⟩] ∧
    classify_rows "|" [⟨"q", "A|x", 10⟩, ⟨"q", "B|x", 10⟩] ≠
      classify_rows "|" [⟨"q", "B|x", 10⟩, ⟨"q", "A|x", 10⟩] :=
  ⟨List.Perm.swap _ _ _, by decide⟩

/-- C9 as amended: for any two orders of the retained hits, the emitted
query ids and vote scores agree; the winning categories also agree
whenever each query has a unique maximal-weight category, but may differ
under an exact tie. -/
theorem vote_accumulation_commutative (sep : String) (hits1 hits2 : List Hit)
    (hperm : List.Perm hits1 hits2) :
    (classify_rows sep hits1).map (fun r => (r.1, r.2.2)) =
      (classify_rows sep hits2).map (fun r => (r.1, r.2.2)) ∧
    ((∀ q c1 c2,
        hitsHas sep hits1 q c1 → hitsHas sep hits1 q c2 →
        (∀ c, hitsHas sep hits1 q c →
          voteTotal sep hits1 q c ≤ voteTotal sep hits1 q c1) →
        (∀ c, hitsHas sep hits1 q c →
          voteTotal sep hits1 q c ≤ voteTotal sep hits1 q c2) →
        c1 = c2) →
      classify_rows sep hits1 = classify_rows sep hits2) := by
  have hkperm : List.Perm ((voteAccum sep hits1).map Prod.fst)
      ((voteAccum sep hits2).map Prod.fst) := by
    apply (List.perm_ext_iff_of_nodup (nodup_keys_voteAccum sep hits1)
      (nodup_keys_voteAccum sep hits2)).mpr
    intro q
    rw [mem_keys_voteAccum, mem_keys_voteAccum]
    exact (hperm.map Hit.qname).mem_iff
  have hkeq : ((voteAccum sep hits1).map Prod.fst).insertionSort
        (fun a b : String => a ≤ b) =
      ((voteAccum sep hits2).map Prod.fst).insertionSort (fun a b : String => a ≤ b) := by
    haveI : IsAntisymm String (fun a b : String => a ≤ b) :=
      ⟨fun a b h1 h2 => le_antisymm h1 h2⟩
    exact List.eq_of_perm_of_sorted
      (((List.perm_insertionSort _ _).trans hkperm).trans
        (List.perm_insertionSort _ _).symm)
      (List.sorted_insertionSort _ _) (List.sorted_insertionSort _ _)
  constructor
  · unfold classify_rows
    dsimp only
    rw [List.map_map, List.map_map, ← hkeq]
    apply List.map_congr_left
    intro q hq
    have hq1 : q ∈ (voteAccum sep hits1).map Prod.fst :=
      (List.perm_insertionSort _ _).mem_iff.mp hq
    have hs := (rowFor_perm_facts sep hits1 hits2 hperm q hq1).1
    show ((rowFor (voteAccum sep hits1) q).1, (rowFor (voteAccum sep hits1) q).2.2) =
      ((rowFor (voteAccum sep hits2) q).1, (rowFor (voteAccum sep hits2) q).2.2)
    rw [rowFor_fst, rowFor_fst, hs]
  · intro huniq
    unfold classify_rows
    dsimp only
    rw [← hkeq]
    apply List.map_congr_left
    intro q hq
    have hq1 : q ∈ (voteAccum sep hits1).map Prod.fst :=
      (List.perm_insertionSort _ _).mem_iff.mp hq
    obtain ⟨hH1, hV1, hM1⟩ := rowFor_voteAccum sep hits1 q hq1
    obtain ⟨hs, hH2t, hM2t⟩ := rowFor_perm_facts sep hits1 hits2 hperm q hq1
    have hM1v : ∀ c, hitsHas sep hits1 q c →
        voteTotal sep hits1 q c ≤
          voteTotal sep hits1 q (rowFor (voteAccum sep hits1) q).2.1 := by
      intro c hc
      rw [← hV1]
      exact hM1 c hc
    have hcat : (rowFor (voteAccum sep hits1) q).2.1 =
        (rowFor (voteAccum sep hits2) q).2.1 :=
      huniq q _ _ hH1 hH2t hM1v hM2t
    apply Prod.ext
    · rw [rowFor_fst, rowFor_fst]
    · apply Prod.ext
      · exact hcat
      · exact hs

/-- Witness for C9: a single-hit list, where the winner is unique, gives
identical rows under the identity permutation. -/
theorem vote_accumulation_commutative_witness :
    (classify_rows "|" [(⟨"r", "X|1", 5⟩ : Hit)]).map (fun r => (r.1, r.2.2)) =
      (classify_rows "|" [(⟨"r", "X|1", 5⟩ : Hit)]).map (fun r => (r.1, r.2.2)) ∧
    classify_rows "|" [(⟨"r", "X|1", 5⟩ : Hit)] =
      classify_rows "|" [(⟨"r", "X|1", 5⟩ : Hit)] := by
  have h := vote_accumulation_commutative "|" [⟨"r", "X|1", 5⟩] [⟨"r", "X|1", 5⟩]
    (List.Perm.refl _)
  refine ⟨h.1, h.2 ?_⟩
  intro q c1 c2 h1 h2 hm1 hm2
  obtain ⟨x, hx, hqx, hcx⟩ := h1
  obtain ⟨y, hy, hqy, hcy⟩ := h2
  obtain rfl : x = ⟨"r", "X|1", 5⟩ := by simpa using hx
  obtain rfl : y = ⟨"r", "X|1", 5⟩ := by simpa using hy
  rw [← hcx, ← hcy]

end BarcodeVote
